import Mathlib

/-!
Verification of the AucTok scrapers (`scrape_auctionhouse.py`,
`scrape_national_lots.py`) against their natural-language specification.

The Python sources are shallowly embedded: pure helpers become Lean
functions over `String` / `List Char`; the network is a parameter
(`String → Option SitemapDoc` for the sitemap crawl, `Nat → Except ε String`
for the retrying fetcher); Python dicts become association lists; Python
exceptions become `Except` / abort constructors.  Calls into the CPython
standard library (`urllib.parse.urlparse` and friends) are embedded from
CPython's documented algorithm, since the scripts' observable behaviour
depends on them.
-/

/- ===================== String primitives ===================== -/

/-- Bool test that `needle` is a prefix of `hay` (over `List Char`). -/
def hasPrefixL (pre l : List Char) : Bool :=
  match pre, l with
  | [], _ => true
  | _, [] => false
  | x :: xs, y :: ys => x = y && hasPrefixL xs ys

/-- Bool test that `needle` occurs as a contiguous substring of `hay`;
models Python's `needle in hay` on strings. -/
def hasSubL (needle hay : List Char) : Bool :=
  match hay with
  | [] => needle.isEmpty
  | _ :: t => hasPrefixL needle hay || hasSubL needle t

/-- Python's `needle in hay` for strings. -/
def strIn (needle hay : String) : Bool :=
  hasSubL needle.toList hay.toList

/-- Bool test that `needle` is a suffix of `hay`. -/
def hasSuffixL (needle hay : List Char) : Bool :=
  hasPrefixL needle.reverse hay.reverse

/-- Python's `s.endswith(suffix)`. -/
def pyEndsWith (s suffix : String) : Bool :=
  hasSuffixL suffix.toList s.toList

/-- The whitespace stripped by Python's `str.strip()` (ASCII part; the
scripts only ever meet ASCII whitespace in sitemap/anchor text). -/
def isPySpace (c : Char) : Bool :=
  c = ' ' || c = '\t' || c = '\n' || c = '\r' || c = '\x0b' || c = '\x0c'

/-- Python's `s.strip()`. -/
def pyStrip (s : String) : String :=
  (((s.toList.dropWhile isPySpace).reverse.dropWhile isPySpace).reverse).asString

/-- Python's `s.lower()` (ASCII case folding, which is all the scripts rely
on: every keyword compared against is ASCII). -/
def pyLower (s : String) : String :=
  (s.toList.map Char.toLower).asString

/-- Python truthiness of a string (`""` is falsy). -/
def pyTruthyStr (s : String) : Bool :=
  !s.toList.isEmpty

/-- Python truthiness of an optional string (`None` and `""` are falsy). -/
def pyTruthy (o : Option String) : Bool :=
  pyTruthyStr (o.getD "")

/- ===================== CPython `urllib.parse` model ===================== -/

/-- Characters allowed in a URL scheme, per CPython's
`urllib.parse.scheme_chars` (letters, digits, `+`, `-`, `.`). -/
def isSchemeChar (c : Char) : Bool :=
  c.isAlphanum || c = '+' || c = '-' || c = '.'

/-- Split a list at the first occurrence of `c`: returns the part before it
and, when `c` occurs, the part after it.  Models `str.split(c, 1)` /
`str.find(c)`. -/
def breakAtChar (c : Char) : List Char → List Char × Option (List Char)
  | [] => ([], none)
  | x :: xs =>
    if x = c then ([], some xs)
    else
      match breakAtChar c xs with
      | (a, b) => (x :: a, b)

/-- Split a list at the last occurrence of `c` (`str.rfind(c)`): `none` when
`c` does not occur, else `some (before, after)` with `c ∉ after`. -/
def breakAtLast (c : Char) : List Char → Option (List Char × List Char)
  | [] => none
  | x :: xs =>
    match breakAtLast c xs with
    | some (a, b) => some (x :: a, b)
    | none => if x = c then some ([], xs) else none

/-- Scheme extraction step of CPython `urlsplit`: if the text before the
first `:` is nonempty, starts with an ASCII letter and consists of scheme
characters, it is the (lowercased) scheme; otherwise there is no scheme. -/
def splitScheme (url : List Char) : List Char × List Char :=
  match breakAtChar ':' url with
  | (before, some rest) =>
    match before with
    | [] => ([], url)
    | c :: cs =>
      if c.isAlpha && (c :: cs).all isSchemeChar then
        ((c :: cs).map Char.toLower, rest)
      else ([], url)
  | (_, none) => ([], url)

/-- The characters that terminate the network-location part. -/
def isNetlocStop (c : Char) : Bool :=
  c = '/' || c = '?' || c = '#'

/-- Longest prefix free of `/?#` (CPython `_splitnetloc`). -/
def spanNetloc : List Char → List Char × List Char
  | [] => ([], [])
  | c :: cs =>
    if isNetlocStop c then ([], c :: cs)
    else
      match spanNetloc cs with
      | (a, b) => (c :: a, b)

/-- Netloc extraction step of CPython `urlsplit`: only a `//` prefix
introduces a network location. -/
def splitNetloc (url : List Char) : List Char × List Char :=
  match url with
  | '/' :: '/' :: rest => spanNetloc rest
  | _ => ([], url)

/-- Fragment split of CPython `urlsplit` (`url.split('#', 1)`). -/
def splitFragment (url : List Char) : List Char × List Char :=
  match breakAtChar '#' url with
  | (a, some b) => (a, b)
  | (_, none) => (url, [])

/-- Query split of CPython `urlsplit` (`url.split('?', 1)`). -/
def splitQuery (url : List Char) : List Char × List Char :=
  match breakAtChar '?' url with
  | (a, some b) => (a, b)
  | (_, none) => (url, [])

/-- Params split of CPython `urlparse` (`_splitparams`): the params are the
part of the last path segment after its first `;`. -/
def splitParams (path : List Char) : List Char × List Char :=
  match breakAtLast '/' path with
  | some (a, b) =>
    match breakAtChar ';' b with
    | (_, none) => (path, [])
    | (b1, some b2) => (a ++ '/' :: b1, b2)
  | none =>
    match breakAtChar ';' path with
    | (_, none) => (path, [])
    | (p1, some p2) => (p1, p2)

/-- A path from which `_splitparams` strips nothing: its final segment (the
part after the last `/`, or the whole path when there is no `/`) contains
no `;`. -/
def paramsFree (path : List Char) : Prop :=
  match breakAtLast '/' path with
  | some (_, b) => ';' ∉ b
  | none => ';' ∉ path

/-- Result of CPython `urllib.parse.urlparse`, over `List Char`. -/
structure ParsedUrl where
  scheme : List Char
  netloc : List Char
  path : List Char
  params : List Char
  query : List Char
  fragment : List Char
deriving DecidableEq

/-- CPython `urllib.parse.urlparse` (core algorithm: scheme, `//`-netloc,
fragment, query, params; the control-character sanitisation added by later
security patches is omitted — no input below contains control characters). -/
def urlparseL (url : List Char) : ParsedUrl :=
  match splitScheme url with
  | (scheme, r1) =>
    match splitNetloc r1 with
    | (netloc, r2) =>
      match splitFragment r2 with
      | (r3, fragment) =>
        match splitQuery r3 with
        | (rawPath, query) =>
          match splitParams rawPath with
          | (path, params) => ⟨scheme, netloc, path, params, query, fragment⟩

/-- String-level view of a parsed URL. -/
structure UrlParts where
  scheme : String
  netloc : String
  path : String
  params : String
  query : String
  fragment : String
deriving DecidableEq

/-- `urllib.parse.urlparse` on `String`. -/
def urlparse (url : String) : UrlParts :=
  match urlparseL url.toList with
  | ⟨s, n, p, pa, q, f⟩ => ⟨s.asString, n.asString, p.asString, pa.asString, q.asString, f.asString⟩

/-- The canonical form built at `scrape_national_lots.py:72`:
`f"{parsed.scheme}://{parsed.netloc}{parsed.path}"`. -/
def canonicalize (url : String) : String :=
  let parsed := urlparse url
  parsed.scheme ++ "://" ++ parsed.netloc ++ parsed.path

/-- `List Char` version of `canonicalize` (definitionally the same data). -/
def canonicalizeL (url : List Char) : List Char :=
  let p := urlparseL url
  p.scheme ++ [':', '/', '/'] ++ p.netloc ++ p.path

/- ===================== scrape_auctionhouse.py ===================== -/

/-- `PropertyRecord` dataclass of `scrape_auctionhouse.py`. -/
structure PropertyRecord where
  url : String
  title : Option String
  address : Option String
  guide_price : Option String
  status : Option String
  auction_date : Option String
  lot_number : Option String
deriving DecidableEq

/-- The disqualifying status keywords of `is_for_sale`. -/
def availabilityFlags : List String :=
  ["sold", "exchanged", "withdrawn", "completed", "contracted"]

/-- `is_for_sale` (`scrape_auctionhouse.py:224`): lowercase the status; a
non-empty status containing a disqualifying keyword is not for sale; then a
truthy guide price means for sale; otherwise for sale only when the status
was empty/absent ("assume available if status is unknown"). -/
def is_for_sale (record : PropertyRecord) : Bool :=
  let status := pyLower (record.status.getD "")
  if pyTruthyStr status
      && availabilityFlags.any (fun flag => strIn flag status) then
    false
  else if pyTruthy record.guide_price then
    true
  else
    !pyTruthyStr status

/-- `looks_like_property_url` (`scrape_auctionhouse.py:84`). -/
def looks_like_property_url (url : String) : Bool :=
  let path := pyLower (urlparse url).path
  strIn "/property/" path || strIn "/properties/" path

/-- The aggregated failure raised by `fetch_text` after exhausting its
attempts: `RuntimeError(f"Failed to fetch {url}: {last_error}")` carries the
URL and the last underlying error (`None` when no attempt ran). -/
structure FetchFailure (ε : Type) where
  url : String
  lastError : Option ε
deriving DecidableEq

/-- Loop body of `fetch_text`: `attempt` is the 1-based attempt counter,
`remaining` the number of attempts still allowed, `net i` the outcome the
network would give attempt `i`.  A failure with further attempts remaining
retries (after a sleep, irrelevant here); a failure on the final attempt
breaks out and raises. -/
def fetchLoop (net : Nat → Except ε String) (url : String) :
    Nat → Nat → Option ε → Except (FetchFailure ε) String
  | _, 0, lastError => .error ⟨url, lastError⟩
  | attempt, remaining + 1, _ =>
    match net attempt with
    | .ok body => .ok body
    | .error e =>
      match remaining with
      | 0 => .error ⟨url, some e⟩
      | r + 1 => fetchLoop net url (attempt + 1) (r + 1) (some e)

/-- `fetch_text` (`scrape_auctionhouse.py:60`): run
`for attempt in range(1, retries + 1)` — an empty range when
`retries <= 0` — returning the first successful body, else raising the
aggregated failure. -/
def fetch_text (net : Nat → Except ε String) (url : String) (retries : Int) :
    Except (FetchFailure ε) String :=
  fetchLoop net url 1 retries.toNat none

/-- A sitemap document as the crawler observes it after `fetch_text` and
`ET.fromstring`: unparseable XML, an index document (root tag ends in
`sitemapindex`) with its `<loc>` texts, or a leaf document with its `<loc>`
texts.  (A `loc` element with no text is the empty string, matching
`(loc.text or "")`.) -/
inductive SitemapDoc where
  | malformed
  | index (locs : List String)
  | leaf (locs : List String)

/-- Outcome of the sitemap traversal: normal completion with the sorted
url list, the `RuntimeError` of `fetch_text` propagating out of the `while`
loop (aborting the whole traversal), or fuel exhaustion (an artifact of the
embedding; the Python loop just keeps running). -/
inductive CrawlOutcome where
  | done (urls : List String)
  | aborted (url : String)
  | fuelOut
deriving DecidableEq

/-- Leaf-document processing (`scrape_auctionhouse.py:128`): strip each
`loc` text, skip empties, keep property-like URLs. -/
def extractProps (locs : List String) : List String :=
  locs.filterMap fun loc =>
    let t := pyStrip loc
    if t.toList.isEmpty then none
    else if looks_like_property_url t then some t
    else none

/-- Index-document processing (`scrape_auctionhouse.py:118`): strip each
`loc` text; skip empties and already-visited documents; drop children once
`len(visited) + len(to_visit)` reaches `max_nested`; push `.xml` children
onto the stack (the stack's top is the list head, so Python's
`to_visit.append` is a cons here). -/
def pushChildren (locs : List String) (visited : List String)
    (maxNested : Nat) (stack : List String) : List String :=
  locs.foldl
    (fun st loc =>
      let t := pyStrip loc
      if t.toList.isEmpty || visited.contains t then st
      else if maxNested ≤ visited.length + st.length then st
      else if pyEndsWith t ".xml" then t :: st
      else st)
    stack

/-- Python's `<` on strings, over the character lists: lexicographic
comparison of code points. -/
def listStrLt : List Char → List Char → Bool
  | _, [] => false
  | [], _ :: _ => true
  | a :: as, b :: bs =>
    if a.toNat < b.toNat then true
    else if b.toNat < a.toNat then false
    else listStrLt as bs

/-- Python's `<` on strings. -/
def pyStrLt (a b : String) : Bool :=
  listStrLt a.toList b.toList

/-- Insert into a strictly-sorted list, keeping it strictly sorted. -/
def insSorted (x : String) : List String → List String
  | [] => [x]
  | y :: ys =>
    if pyStrLt x y then x :: y :: ys
    else if x = y then y :: ys
    else y :: insSorted x ys

/-- `sorted(set(l))`: the sorted list of the distinct elements of `l`. -/
def sortedDedup (l : List String) : List String :=
  l.foldl (fun acc x => insSorted x acc) []

/-- The `while to_visit:` loop of `iter_sitemap_property_urls`
(`scrape_auctionhouse.py:102`).  `net u = none` models `fetch_text` raising
for `u` (which propagates, aborting the loop); the returned trace lists the
documents for which `fetch_text` was called, in order. -/
def crawlLoop (net : String → Option SitemapDoc) (maxNested : Nat) :
    Nat → List String → List String → List String → List String →
    CrawlOutcome × List String
  | 0, _, _, _, trace => (.fuelOut, trace)
  | _ + 1, [], _, props, trace => (.done (sortedDedup props), trace)
  | fuel + 1, current :: rest, visited, props, trace =>
    if visited.contains current then
      crawlLoop net maxNested fuel rest visited props trace
    else
      match net current with
      | none => (.aborted current, trace ++ [current])
      | some .malformed =>
        crawlLoop net maxNested fuel rest (current :: visited) props
          (trace ++ [current])
      | some (.index locs) =>
        crawlLoop net maxNested fuel
          (pushChildren locs (current :: visited) maxNested rest)
          (current :: visited) props (trace ++ [current])
      | some (.leaf locs) =>
        crawlLoop net maxNested fuel rest (current :: visited)
          (props ++ extractProps locs) (trace ++ [current])

/-- `iter_sitemap_property_urls` (`scrape_auctionhouse.py:90`), started from
the root sitemap with empty visited set and result set. -/
def iter_sitemap_property_urls (net : String → Option SitemapDoc)
    (rootSitemap : String) (maxNested : Nat) (fuel : Nat) :
    CrawlOutcome × List String :=
  crawlLoop net maxNested fuel [rootSitemap] [] [] []

/-- The per-property loop of `run` (`scrape_auctionhouse.py:261`): `none`
models fetch/parse raising for that URL (record skipped); a surviving
record is kept when `args.include_sold or is_for_sale(record)`. -/
def runStep (includeSold : Bool) (records : List PropertyRecord)
    (page : Option PropertyRecord) : List PropertyRecord :=
  match page with
  | none => records
  | some record =>
    if includeSold || is_for_sale record then records ++ [record]
    else records

/-- The record list `run` accumulates and hands to `write_csv`. -/
def runRecords (includeSold : Bool) (pages : List (Option PropertyRecord)) :
    List PropertyRecord :=
  pages.foldl (runStep includeSold) []

/- ===================== scrape_national_lots.py ===================== -/

/-- `LOT_PATH_MARKER` of `scrape_national_lots.py`. -/
def LOT_PATH_MARKER : String := "/lot/details/"

/-- The domain test of `find_lot_links` (`scrape_national_lots.py:70`):
`"online.auctionhouse.co.uk" in parsed.netloc`. -/
def lotHostOk (absolute : String) : Bool :=
  strIn "online.auctionhouse.co.uk" (urlparse absolute).netloc

/-- Loop body of `find_lot_links`, processing one anchor `href` given the
state `(seen, links)`.  `resolve` abstracts `urljoin(base_url, ·)`. -/
def findLotLinksStep (resolve : String → String)
    (st : List String × List String) (anchor : String) :
    List String × List String :=
  if !strIn LOT_PATH_MARKER (pyStrip anchor) then st
  else if !lotHostOk (resolve (pyStrip anchor)) then st
  else if st.1.contains (canonicalize (resolve (pyStrip anchor))) then st
  else (canonicalize (resolve (pyStrip anchor)) :: st.1,
        st.2 ++ [canonicalize (resolve (pyStrip anchor))])

/-- `find_lot_links` (`scrape_national_lots.py:58`): the page is observed as
the list of `a[href]` attribute values in document order; `resolve`
abstracts `urljoin` against the base URL. -/
def find_lot_links (resolve : String → String) (anchors : List String) :
    List String :=
  (anchors.foldl (findLotLinksStep resolve) ([], [])).2

/-- Keys of the dicts built by `parse_lot_page`: the seven schema fields. -/
inductive LotKey where
  | url
  | title
  | address
  | guide_price
  | status
  | auction_date
  | lot_number
deriving DecidableEq

/-- A Python dict over `LotKey`, as an insertion-ordered association list
(no duplicate keys in any dict Python builds). -/
abbrev LotDict := List (LotKey × String)

/-- Python `d.get(k)` (`None` when absent). -/
def dget (d : LotDict) (k : LotKey) : Option String :=
  match d with
  | [] => none
  | (k', v) :: rest => if k' = k then some v else dget rest k

/-- Python `d[k] = v`: replace in place if the key exists, else append. -/
def dset (d : LotDict) (k : LotKey) (v : String) : LotDict :=
  match d with
  | [] => [(k, v)]
  | (k', v') :: rest => if k' = k then (k, v) :: rest else (k', v') :: dset rest k v

/-- One step of `details.update({k: v for k, v in structured.items() if v})`:
only non-empty structured values are written. -/
def structStep (acc : LotDict) (kv : LotKey × String) : LotDict :=
  if pyTruthyStr kv.2 then dset acc kv.1 kv.2 else acc

/-- One step of the fallback loop: `if value and not details.get(key)`. -/
def fallbackStep (acc : LotDict) (kv : LotKey × String) : LotDict :=
  if pyTruthyStr kv.2 && !(pyTruthy (dget acc kv.1)) then
    dset acc kv.1 kv.2
  else acc

/-- `parse_lot_page` (`scrape_national_lots.py:203`): start from
`{"url": url}`, `update` with the non-empty structured (JSON-LD) values,
then fill gaps from the heuristic fallbacks when the fallback value is
truthy and the current value is absent or empty. -/
def parse_lot_page (url : String) (structured fallbacks : LotDict) : LotDict :=
  fallbacks.foldl fallbackStep
    (structured.foldl structStep [(LotKey.url, url)])

/-- The collection loop of `scrape_national_lots`
(`scrape_national_lots.py:251`): a `none` page models `fetch_content`
raising `FetchError` (that lot is skipped); every successfully fetched lot
page's parsed record is appended — there is no availability filtering in
this pipeline. -/
def nationalStep (rows : List LotDict) (page : Option LotDict) :
    List LotDict :=
  match page with
  | none => rows
  | some details => rows ++ [details]

/-- The row list `scrape_national_lots` accumulates and writes. -/
def nationalRows (pages : List (Option LotDict)) : List LotDict :=
  pages.foldl nationalStep []

/- ===================== Spec-side definitions ===================== -/

/-- Deduplication keeping the first occurrence, with an accumulator of
already-seen values. -/
def dedupFirstAux (seen : List String) : List String → List String
  | [] => []
  | x :: xs =>
    if seen.contains x then dedupFirstAux seen xs
    else x :: dedupFirstAux (x :: seen) xs

/-- Deduplication keeping the first occurrence. -/
def dedupFirst (l : List String) : List String :=
  dedupFirstAux [] l

/-- Spec 4.3, stated in the spec's own stages: scan anchors, keep hrefs
matching the listing-detail path marker, resolve each against the base URL,
discard those whose host does not match the listing-hosting domain,
canonicalize (scheme+host+path), then dedup by canonical form keeping order
of first appearance. -/
def discover_from_page_spec (resolve : String → String)
    (anchors : List String) : List String :=
  dedupFirst
    ((((anchors.map pyStrip).filter
        (fun href => strIn LOT_PATH_MARKER href)).map resolve).filter
          lotHostOk |>.map canonicalize)

/-- The candidate canonical URLs of a page, as a single pass (used to relate
the code's fold to the spec's pipeline). -/
def lotCandidates (resolve : String → String) (anchors : List String) :
    List String :=
  anchors.filterMap fun anchor =>
    let href := pyStrip anchor
    if strIn LOT_PATH_MARKER href then
      let absolute := resolve href
      if lotHostOk absolute then some (canonicalize absolute) else none
    else none

/-- The property URLs a completed crawl should report for a given fetch
trace: the union, in trace order, of the property-like URLs of each leaf
document fetched. -/
def traceProps (net : String → Option SitemapDoc) (trace : List String) :
    List String :=
  trace.foldr
    (fun doc acc =>
      (match net doc with
       | some (.leaf locs) => extractProps locs
       | _ => []) ++ acc)
    []

/- ===================== Concrete instances ===================== -/

/-- A record with a clean non-empty status and no guide price. -/
def biddingOpenRecord : PropertyRecord :=
  ⟨"https://www.auctionhouse.co.uk/property/1", none, none, none,
    some "Bidding Open", none, none⟩

/-- The same clean status together with a guide price. -/
def biddingOpenPricedRecord : PropertyRecord :=
  ⟨"https://www.auctionhouse.co.uk/property/1", none, none,
    some "£150,000", some "Bidding Open", none, none⟩

/-- A parsed national lot whose status is `"Sold"`. -/
def soldLotDict : LotDict :=
  [(LotKey.url, "https://online.auctionhouse.co.uk/lot/details/1"),
   (LotKey.status, "Sold")]

/-- `soldLotDict` viewed through the availability classifier's inputs. -/
def soldLotRecord : PropertyRecord :=
  ⟨"https://online.auctionhouse.co.uk/lot/details/1", none, none,
    dget soldLotDict LotKey.guide_price, dget soldLotDict LotKey.status,
    none, none⟩

/-- A structured (JSON-LD) extraction with a title and a guide price. -/
def mergeStructuredDict : LotDict :=
  [(LotKey.title, "Structured Title"), (LotKey.guide_price, "120000")]

/-- A heuristic extraction that disagrees on the title. -/
def mergeFallbackDict : LotDict :=
  [(LotKey.title, "Heuristic Title"), (LotKey.lot_number, "42")]

/-- A sitemap universe whose root index references one child sitemap, and
where fetching that child fails after all retries. -/
def netChildFails : String → Option SitemapDoc := fun u =>
  if u = "https://x.co.uk/sitemap.xml" then
    some (.index ["https://x.co.uk/child.xml"])
  else none

/-- A sitemap universe with an index and two leaf sitemaps holding two and
one property URLs. -/
def netTwoLeaves : String → Option SitemapDoc := fun u =>
  if u = "https://x.co.uk/sitemap.xml" then
    some (.index ["https://x.co.uk/a.xml", "https://x.co.uk/b.xml"])
  else if u = "https://x.co.uk/a.xml" then
    some (.leaf ["https://x.co.uk/property/alpha",
                 "https://x.co.uk/property/beta"])
  else if u = "https://x.co.uk/b.xml" then
    some (.leaf ["https://x.co.uk/property/103"])
  else none

/-- A sitemap universe whose single leaf lists the same property twice, the
second time with a query string. -/
def netQueryDup : String → Option SitemapDoc := fun u =>
  if u = "https://x.co.uk/sitemap.xml" then
    some (.leaf ["https://x.co.uk/property/1",
                 "https://x.co.uk/property/1?page=2"])
  else none

/- ===================== Basic lemmas ===================== -/

theorem toList_asString (l : List Char) : (List.asString l).toList = l := rfl

theorem toList_pyLower (s : String) :
    (pyLower s).toList = s.toList.map Char.toLower := rfl

/- ===================== C1: availability classifier ===================== -/

/-- C1 (counterexample): the record with status `"Bidding Open"` — present,
non-empty, containing none of the disqualifying keywords — and no guide
price is classified as NOT for sale, contradicting the claim that the
classifier returns true for such records regardless of `guide_price`. -/
theorem biddingOpen_without_price_not_for_sale :
    pyTruthy biddingOpenRecord.status = true
    ∧ (availabilityFlags.all
        (fun flag =>
          !strIn flag (pyLower (biddingOpenRecord.status.getD "")))) = true
    ∧ biddingOpenRecord.guide_price = none
    ∧ is_for_sale biddingOpenRecord = false := by
  refine ⟨rfl, by decide, rfl, by decide⟩

/-- C1 (amended): for a record whose status is present, non-empty and free
of the disqualifying keywords (case-insensitively), the classifier returns
true exactly when `guide_price` is present and non-empty. -/
theorem is_for_sale_clean_status_iff_price (r : PropertyRecord)
    (h1 : pyTruthy r.status = true)
    (h2 : availabilityFlags.all
        (fun flag => !strIn flag (pyLower (r.status.getD ""))) = true) :
    is_for_sale r = pyTruthy r.guide_price := by
  have hne : pyTruthyStr (pyLower (r.status.getD "")) = true := by
    unfold pyTruthy pyTruthyStr at h1
    unfold pyTruthyStr
    rw [toList_pyLower]
    cases hl : (r.status.getD "").toList with
    | nil => rw [hl] at h1; simp at h1
    | cons a l => simp
  have hflag : (availabilityFlags.any
      (fun flag => strIn flag (pyLower (r.status.getD "")))) = false := by
    rw [List.any_eq_false]
    intro flag hf
    have := (List.all_eq_true.mp h2) flag hf
    simpa using this
  unfold is_for_sale
  simp only [hne, hflag, Bool.and_false, Bool.false_eq_true, if_false]
  cases hg : pyTruthy r.guide_price <;> simp [hg, hne]

/-- C1 (witness): with status `"Bidding Open"` and guide price
`"£150,000"`, the classifier answers true. -/
theorem is_for_sale_clean_status_iff_price_witness :
    is_for_sale biddingOpenPricedRecord = true :=
  (is_for_sale_clean_status_iff_price biddingOpenPricedRecord rfl
    (by decide)).trans (by decide)

/- ===================== C10: zero or negative retries ===================== -/

/-- C10: with `retries <= 0` the range `range(1, retries + 1)` is empty, so
no request attempt runs (the result is the same whatever the network does)
and `fetch_text` raises the aggregated failure with last error `None`. -/
theorem fetch_text_nonpos_retries (ε : Type) (net : Nat → Except ε String)
    (url : String) (retries : Int) (h : retries ≤ 0) :
    fetch_text net url retries = .error ⟨url, none⟩ := by
  unfold fetch_text
  rw [Int.toNat_of_nonpos h]
  rfl

/-- C10 (witness): concrete run at `retries = -1`. -/
theorem fetch_text_nonpos_retries_witness :
    fetch_text (fun _ => (.error 0 : Except Nat String))
      "https://example.com" (-1) = .error ⟨"https://example.com", none⟩ :=
  fetch_text_nonpos_retries Nat (fun _ => .error 0) "https://example.com"
    (-1) (by decide)

/- ===================== C4: fetch with retries = 3 ===================== -/

/-- C4: with `retries = 3` the fetcher's result is fully determined by the
outcomes of attempts 1–3: the body of the first successful attempt is
returned unchanged, and when all three fail the single aggregated failure
carries the URL and only the third (last) error. -/
theorem fetch_text_retries_three_characterization (ε : Type)
    (net : Nat → Except ε String) (url : String) :
    fetch_text net url 3 =
      (match net 1 with
       | .ok body => .ok body
       | .error _ =>
         match net 2 with
         | .ok body => .ok body
         | .error _ =>
           match net 3 with
           | .ok body => .ok body
           | .error e => .error ⟨url, some e⟩) := by
  have h : fetch_text net url 3 = fetchLoop net url 1 3 none := rfl
  rw [h]
  cases h1 : net 1 with
  | ok body => simp [fetchLoop, h1]
  | error e1 =>
    cases h2 : net 2 with
    | ok body => simp [fetchLoop, h1, h2]
    | error e2 =>
      cases h3 : net 3 with
      | ok body => simp [fetchLoop, h1, h2, h3]
      | error e3 => simp [fetchLoop, h1, h2, h3]

/- ===================== C3: export contents ===================== -/

theorem runRecords_loop (includeSold : Bool)
    (pages : List (Option PropertyRecord)) (acc : List PropertyRecord) :
    pages.foldl (runStep includeSold) acc
    = acc ++ (pages.filterMap id).filter
        (fun record => includeSold || is_for_sale record) := by
  induction pages generalizing acc with
  | nil => simp
  | cons p ps ih =>
    rw [List.foldl_cons]
    cases p with
    | none =>
      rw [show runStep includeSold acc none = acc from rfl, ih]
      simp
    | some record =>
      cases h : (includeSold || is_for_sale record) with
      | true =>
        rw [show runStep includeSold acc (some record)
            = if (includeSold || is_for_sale record) = true
              then acc ++ [record] else acc from rfl,
          if_pos h, ih]
        simp [h]
      | false =>
        rw [show runStep includeSold acc (some record)
            = if (includeSold || is_for_sale record) = true
              then acc ++ [record] else acc from rfl,
          if_neg (by simp [h]), ih]
        simp [h]

theorem nationalRows_loop (pages : List (Option LotDict)) (acc : List LotDict) :
    pages.foldl nationalStep acc = acc ++ pages.filterMap id := by
  induction pages generalizing acc with
  | nil => simp
  | cons p ps ih =>
    rw [List.foldl_cons]
    cases p with
    | none =>
      rw [show nationalStep acc none = acc from rfl, ih]
      simp
    | some details =>
      rw [show nationalStep acc (some details) = acc ++ [details] from rfl, ih]
      simp

/-- C3 (amended): the auctionhouse pipeline exports exactly the successfully
parsed records that pass `is_for_sale` (all of them under
`--include-sold`); the national pipeline exports every successfully parsed
record unconditionally — it applies no availability classifier and has no
opt-in. -/
theorem export_rows_characterization
    (pages : List (Option PropertyRecord)) (lots : List (Option LotDict)) :
    runRecords false pages = (pages.filterMap id).filter is_for_sale
    ∧ runRecords true pages = pages.filterMap id
    ∧ nationalRows lots = lots.filterMap id := by
  refine ⟨?_, ?_, ?_⟩
  · rw [runRecords, runRecords_loop]
    simp
  · rw [runRecords, runRecords_loop]
    simp
  · rw [nationalRows, nationalRows_loop]
    simp

/-- C3 (counterexample): the national pipeline, run over one successfully
parsed lot page whose record has status `"Sold"`, writes that record even
though it fails the availability classifier — and the pipeline has no
opt-in for including unavailable records. -/
theorem national_writes_unavailable_record :
    nationalRows [some soldLotDict] = [soldLotDict]
    ∧ is_for_sale soldLotRecord = false := by
  exact ⟨rfl, by decide⟩

/- ===================== C5: merge precedence ===================== -/

theorem dget_dset_self (d : LotDict) (k : LotKey) (v : String) :
    dget (dset d k v) k = some v := by
  induction d with
  | nil => simp [dset, dget]
  | cons kv rest ih =>
    obtain ⟨k', v'⟩ := kv
    by_cases h : k' = k
    · subst h
      simp [dset, dget]
    · simp [dset, dget, h, ih]

theorem dget_dset_ne (d : LotDict) (k k' : LotKey) (v : String)
    (h : k' ≠ k) : dget (dset d k' v) k = dget d k := by
  induction d with
  | nil => simp [dset, dget, h]
  | cons kv rest ih =>
    obtain ⟨a, b⟩ := kv
    by_cases ha : a = k'
    · subst ha
      simp [dset, dget, h]
    · simp [dset, dget, ha, ih]

theorem dget_structStep_ne (acc : LotDict) (kv : LotKey × String)
    (k : LotKey) (h : kv.1 ≠ k) :
    dget (structStep acc kv) k = dget acc k := by
  unfold structStep
  split
  · exact dget_dset_ne _ _ _ _ h
  · rfl

theorem dget_structStep_self (acc : LotDict) (k : LotKey) (v : String) :
    dget (structStep acc (k, v)) k =
      if pyTruthyStr v then some v else dget acc k := by
  unfold structStep
  split_ifs
  · exact dget_dset_self _ _ _
  · rfl

theorem dget_fallbackStep_ne (acc : LotDict) (kv : LotKey × String)
    (k : LotKey) (h : kv.1 ≠ k) :
    dget (fallbackStep acc kv) k = dget acc k := by
  unfold fallbackStep
  split
  · exact dget_dset_ne _ _ _ _ h
  · rfl

theorem dget_fallbackStep_self (acc : LotDict) (k : LotKey) (v : String) :
    dget (fallbackStep acc (k, v)) k =
      if (pyTruthyStr v && !pyTruthy (dget acc k)) = true then some v
      else dget acc k := by
  unfold fallbackStep
  split_ifs
  · exact dget_dset_self _ _ _
  · rfl

theorem dget_eq_none_of_not_mem (d : LotDict) (k : LotKey)
    (h : ∀ kv ∈ d, kv.1 ≠ k) : dget d k = none := by
  induction d with
  | nil => rfl
  | cons kv rest ih =>
    obtain ⟨a, b⟩ := kv
    have ha : a ≠ k := h (a, b) (List.mem_cons_self _ _)
    simp only [dget, if_neg ha]
    exact ih fun kv hkv => h kv (List.mem_cons_of_mem _ hkv)

theorem not_mem_of_dget_eq_none (d : LotDict) (k : LotKey)
    (h : dget d k = none) : ∀ kv ∈ d, kv.1 ≠ k := by
  induction d with
  | nil => intro kv hkv; cases hkv
  | cons kv rest ih =>
    obtain ⟨a, b⟩ := kv
    intro kv' hkv'
    unfold dget at h
    by_cases ha : a = k
    · rw [if_pos ha] at h
      cases h
    · rw [if_neg ha] at h
      rcases List.mem_cons.mp hkv' with heq | hmem
      · subst heq
        exact ha
      · exact ih h kv' hmem

theorem structFold_not_mem (s : LotDict) (acc : LotDict) (k : LotKey)
    (h : ∀ kv ∈ s, kv.1 ≠ k) :
    dget (s.foldl structStep acc) k = dget acc k := by
  induction s generalizing acc with
  | nil => rfl
  | cons kv rest ih =>
    rw [List.foldl_cons,
      ih _ fun kv' hkv' => h kv' (List.mem_cons_of_mem _ hkv'),
      dget_structStep_ne _ _ _ (h kv (List.mem_cons_self _ _))]

theorem fallbackFold_not_mem (fb : LotDict) (acc : LotDict) (k : LotKey)
    (h : ∀ kv ∈ fb, kv.1 ≠ k) :
    dget (fb.foldl fallbackStep acc) k = dget acc k := by
  induction fb generalizing acc with
  | nil => rfl
  | cons kv rest ih =>
    rw [List.foldl_cons,
      ih _ fun kv' hkv' => h kv' (List.mem_cons_of_mem _ hkv'),
      dget_fallbackStep_ne _ _ _ (h kv (List.mem_cons_self _ _))]

theorem structFold_some (s : LotDict) (acc : LotDict) (k : LotKey)
    (v : String) (hnd : (s.map Prod.fst).Nodup) (h : dget s k = some v) :
    dget (s.foldl structStep acc) k =
      if pyTruthyStr v then some v else dget acc k := by
  induction s generalizing acc with
  | nil => cases h
  | cons kv rest ih =>
    obtain ⟨k1, v1⟩ := kv
    rw [List.map_cons, List.nodup_cons] at hnd
    obtain ⟨hout, hrest⟩ := hnd
    rw [List.foldl_cons]
    by_cases hk : k1 = k
    · subst hk
      have hv : v1 = v := by
        unfold dget at h
        rw [if_pos rfl] at h
        exact Option.some.inj h
      subst hv
      have hmem : ∀ kv ∈ rest, kv.1 ≠ k1 := by
        intro kv hkv heq
        have hin : kv.1 ∈ rest.map Prod.fst :=
          List.mem_map_of_mem Prod.fst hkv
        rw [heq] at hin
        exact hout hin
      rw [structFold_not_mem rest _ _ hmem, dget_structStep_self]
    · have h' : dget rest k = some v := by
        unfold dget at h
        rwa [if_neg hk] at h
      rw [ih _ hrest h', dget_structStep_ne _ _ _ hk]

theorem fallbackFold_some (fb : LotDict) (acc : LotDict) (k : LotKey)
    (v : String) (hnd : (fb.map Prod.fst).Nodup) (h : dget fb k = some v) :
    dget (fb.foldl fallbackStep acc) k =
      if (pyTruthyStr v && !pyTruthy (dget acc k)) = true then some v
      else dget acc k := by
  induction fb generalizing acc with
  | nil => cases h
  | cons kv rest ih =>
    obtain ⟨k1, v1⟩ := kv
    rw [List.map_cons, List.nodup_cons] at hnd
    obtain ⟨hout, hrest⟩ := hnd
    rw [List.foldl_cons]
    by_cases hk : k1 = k
    · subst hk
      have hv : v1 = v := by
        unfold dget at h
        rw [if_pos rfl] at h
        exact Option.some.inj h
      subst hv
      have hmem : ∀ kv ∈ rest, kv.1 ≠ k1 := by
        intro kv hkv heq
        have hin : kv.1 ∈ rest.map Prod.fst :=
          List.mem_map_of_mem Prod.fst hkv
        rw [heq] at hin
        exact hout hin
      rw [fallbackFold_not_mem rest _ _ hmem, dget_fallbackStep_self]
    · have h' : dget rest k = some v := by
        unfold dget at h
        rwa [if_neg hk] at h
      rw [ih _ hrest h', dget_fallbackStep_ne _ _ _ hk]

/-- C5: for every non-`url` schema field, the merged record's value is the
structured extractor's value when present and non-empty, else the heuristic
extractor's value when present and non-empty, else absent; in particular a
field carrying non-empty values in both dicts takes the structured value. -/
theorem pyTruthy_none : pyTruthy none = false := rfl

theorem pyTruthy_some (v : String) : pyTruthy (some v) = pyTruthyStr v := rfl

/-- C5: for every non-`url` schema field, the merged record's value is the
structured extractor's value when present and non-empty, else the heuristic
extractor's value when present and non-empty, else absent; in particular a
field carrying non-empty values in both dicts takes the structured value. -/
theorem parse_lot_page_merge_precedence (url : String)
    (structured fallbacks : LotDict)
    (hs : (structured.map Prod.fst).Nodup)
    (hf : (fallbacks.map Prod.fst).Nodup)
    (k : LotKey) (hk : k ≠ LotKey.url) :
    dget (parse_lot_page url structured fallbacks) k =
      if pyTruthy (dget structured k) then dget structured k
      else if pyTruthy (dget fallbacks k) then dget fallbacks k
      else none := by
  unfold parse_lot_page
  have h0 : dget [(LotKey.url, url)] k = none := by
    simp [dget, Ne.symm hk]
  rcases hsg : dget structured k with _ | v
  · have hsf : dget (structured.foldl structStep [(LotKey.url, url)]) k
        = none := by
      rw [structFold_not_mem _ _ _ (not_mem_of_dget_eq_none _ _ hsg), h0]
    rcases hfg : dget fallbacks k with _ | w
    · rw [fallbackFold_not_mem _ _ _ (not_mem_of_dget_eq_none _ _ hfg), hsf]
      simp [pyTruthy_none]
    · rw [fallbackFold_some _ _ _ _ hf hfg, hsf]
      cases hw : pyTruthyStr w <;>
        simp [pyTruthy_none, pyTruthy_some, hw]
  · have hsf : dget (structured.foldl structStep [(LotKey.url, url)]) k
        = if pyTruthyStr v then some v else none := by
      rw [structFold_some _ _ _ _ hs hsg, h0]
    cases hv : pyTruthyStr v
    · rw [if_neg (by simp [hv])] at hsf
      rcases hfg : dget fallbacks k with _ | w
      · rw [fallbackFold_not_mem _ _ _ (not_mem_of_dget_eq_none _ _ hfg), hsf]
        simp [pyTruthy_none, pyTruthy_some, hv]
      · rw [fallbackFold_some _ _ _ _ hf hfg, hsf]
        cases hw : pyTruthyStr w <;>
          simp [pyTruthy_none, pyTruthy_some, hv, hw]
    · rw [if_pos (by simp [hv])] at hsf
      rcases hfg : dget fallbacks k with _ | w
      · rw [fallbackFold_not_mem _ _ _ (not_mem_of_dget_eq_none _ _ hfg), hsf]
        simp [pyTruthy_some, hv]
      · rw [fallbackFold_some _ _ _ _ hf hfg, hsf]
        simp [pyTruthy_some, hv]

/-- C5 (witness): a title present with different non-empty values in both
dicts merges to the structured value. -/
theorem parse_lot_page_merge_precedence_witness :
    dget (parse_lot_page "https://online.auctionhouse.co.uk/lot/details/9"
        mergeStructuredDict mergeFallbackDict) LotKey.title
      = some "Structured Title" :=
  (parse_lot_page_merge_precedence
      "https://online.auctionhouse.co.uk/lot/details/9"
      mergeStructuredDict mergeFallbackDict (by decide) (by decide)
      LotKey.title (by decide)).trans (by decide)

/- ===================== C6: each document fetched at most once ===================== -/

theorem crawlLoop_trace_nodup (net : String → Option SitemapDoc)
    (maxNested : Nat) :
    ∀ fuel stack visited props trace, trace.Nodup →
      (∀ u ∈ trace, u ∈ visited) →
      ((crawlLoop net maxNested fuel stack visited props trace).2).Nodup := by
  intro fuel
  induction fuel with
  | zero =>
    intro stack visited props trace h1 _
    exact h1
  | succ n ih =>
    intro stack visited props trace h1 h2
    match stack with
    | [] => exact h1
    | current :: rest =>
      rw [crawlLoop]
      by_cases h : visited.contains current
      · rw [if_pos h]
        exact ih rest visited props trace h1 h2
      · rw [if_neg h]
        have hcv : current ∉ visited := by simpa using h
        have hct : current ∉ trace := fun hmem => hcv (h2 current hmem)
        have h1' : (trace ++ [current]).Nodup := by
          simp [List.nodup_append, h1, hct]
        have h2' : ∀ u ∈ trace ++ [current], u ∈ current :: visited := by
          intro u hu
          rcases List.mem_append.mp hu with hu | hu
          · exact List.mem_cons_of_mem _ (h2 u hu)
          · simp only [List.mem_singleton] at hu
            subst hu
            exact List.mem_cons_self _ _
        cases hnet : net current with
        | none => exact h1'
        | some doc =>
          cases doc with
          | malformed => exact ih _ _ _ _ h1' h2'
          | index locs => exact ih _ _ _ _ h1' h2'
          | leaf locs => exact ih _ _ _ _ h1' h2'

/-- C6: over any sitemap universe — cyclic graphs and shared children
included — the traversal calls the fetcher at most once per distinct
document: its fetch trace never repeats a URL. -/
theorem sitemap_fetch_at_most_once (net : String → Option SitemapDoc)
    (rootSitemap : String) (maxNested fuel : Nat) :
    ((iter_sitemap_property_urls net rootSitemap maxNested fuel).2).Nodup :=
  crawlLoop_trace_nodup net maxNested fuel [rootSitemap] [] [] []
    (by simp) (by simp)

/- ===================== C2: fetch failures abort the crawl ===================== -/

theorem crawlLoop_failure_fatal (net : String → Option SitemapDoc)
    (maxNested : Nat) :
    ∀ fuel stack visited props trace,
      (∀ u ∈ trace, (net u).isSome = true) →
      (∀ urls tr,
          crawlLoop net maxNested fuel stack visited props trace
            = (.done urls, tr) →
          ∀ u ∈ tr, (net u).isSome = true)
      ∧ (∀ u tr,
          crawlLoop net maxNested fuel stack visited props trace
            = (.aborted u, tr) →
          net u = none) := by
  intro fuel
  induction fuel with
  | zero =>
    intro stack visited props trace _
    constructor
    · intro urls tr heq
      simp [crawlLoop] at heq
    · intro u tr heq
      simp [crawlLoop] at heq
  | succ n ih =>
    intro stack visited props trace hinv
    match stack with
    | [] =>
      constructor
      · intro urls tr heq
        rw [crawlLoop] at heq
        have htr : trace = tr := congrArg Prod.snd heq
        subst htr
        exact hinv
      · intro u tr heq
        simp [crawlLoop] at heq
    | current :: rest =>
      rw [crawlLoop]
      by_cases h : visited.contains current
      · rw [if_pos h]
        exact ih rest visited props trace hinv
      · rw [if_neg h]
        cases hnet : net current with
        | none =>
          constructor
          · intro urls tr heq
            simp at heq
          · intro u tr heq
            have hu : CrawlOutcome.aborted current = CrawlOutcome.aborted u :=
              congrArg Prod.fst heq
            cases hu
            exact hnet
        | some doc =>
          have hinv' : ∀ u ∈ trace ++ [current], (net u).isSome = true := by
            intro u hu
            rcases List.mem_append.mp hu with hu | hu
            · exact hinv u hu
            · simp only [List.mem_singleton] at hu
              subst hu
              simp [hnet]
          cases doc with
          | malformed => exact ih _ _ _ _ hinv'
          | index locs => exact ih _ _ _ _ hinv'
          | leaf locs => exact ih _ _ _ _ hinv'

/-- C2 (amended): a `fetch_text` failure at ANY sitemap document — root or
nested — is fatal to discovery: a traversal that aborts does so exactly at
a document whose fetch failed, and a traversal that completes fetched every
visited document successfully (so no failed branch is ever skipped; only
XML parse failures are skipped per-branch). -/
theorem crawl_fetch_failure_fatal (net : String → Option SitemapDoc)
    (rootSitemap : String) (maxNested fuel : Nat) :
    (∀ urls trace,
        iter_sitemap_property_urls net rootSitemap maxNested fuel
          = (.done urls, trace) →
        ∀ u ∈ trace, (net u).isSome = true)
    ∧ (∀ u trace,
        iter_sitemap_property_urls net rootSitemap maxNested fuel
          = (.aborted u, trace) →
        net u = none) :=
  crawlLoop_failure_fatal net maxNested fuel [rootSitemap] [] [] []
    (by simp)

/-- C2 (witness): on the universe where the child sitemap is unreachable,
the aborting run exhibits the failed document. -/
theorem crawl_fetch_failure_fatal_witness :
    netChildFails "https://x.co.uk/child.xml" = none :=
  (crawl_fetch_failure_fatal netChildFails "https://x.co.uk/sitemap.xml"
      100 5).2 "https://x.co.uk/child.xml"
    ["https://x.co.uk/sitemap.xml", "https://x.co.uk/child.xml"] (by decide)

/-- C2 (counterexample): fetching a non-root sitemap document fails after
all retries and the whole traversal aborts (the `RuntimeError` propagates
out of the `while` loop); the remaining frontier is NOT continued, even
though the failed document is not the root. -/
theorem child_sitemap_fetch_failure_aborts :
    iter_sitemap_property_urls netChildFails "https://x.co.uk/sitemap.xml"
        100 5
      = (.aborted "https://x.co.uk/child.xml",
         ["https://x.co.uk/sitemap.xml", "https://x.co.uk/child.xml"])
    ∧ "https://x.co.uk/child.xml" ≠ "https://x.co.uk/sitemap.xml" := by
  exact ⟨by decide, by decide⟩

/- ===================== C8: the discovery result ===================== -/

theorem listStrLt_irrefl : ∀ l : List Char, listStrLt l l = false := by
  intro l
  induction l with
  | nil => rfl
  | cons a as ih => simp [listStrLt, ih]

theorem listStrLt_trans :
    ∀ as bs cs : List Char, listStrLt as bs = true → listStrLt bs cs = true →
      listStrLt as cs = true := by
  intro as
  induction as with
  | nil =>
    intro bs cs h1 h2
    cases bs with
    | nil => cases h1
    | cons b bs =>
      cases cs with
      | nil => cases h2
      | cons c cs => rfl
  | cons a as ih =>
    intro bs cs h1 h2
    cases bs with
    | nil => cases h1
    | cons b bs =>
      cases cs with
      | nil => cases h2
      | cons c cs =>
        unfold listStrLt at h1 h2 ⊢
        by_cases hab : a.toNat < b.toNat
        · by_cases hbc : b.toNat < c.toNat
          · rw [if_pos (by omega : a.toNat < c.toNat)]
          · rw [if_neg hbc] at h2
            by_cases hcb : c.toNat < b.toNat
            · rw [if_pos hcb] at h2
              cases h2
            · rw [if_pos (by omega : a.toNat < c.toNat)]
        · rw [if_neg hab] at h1
          by_cases hba : b.toNat < a.toNat
          · rw [if_pos hba] at h1
            cases h1
          · rw [if_neg hba] at h1
            by_cases hbc : b.toNat < c.toNat
            · rw [if_pos (by omega : a.toNat < c.toNat)]
            · rw [if_neg hbc] at h2
              by_cases hcb : c.toNat < b.toNat
              · rw [if_pos hcb] at h2
                cases h2
              · rw [if_neg hcb] at h2
                rw [if_neg (by omega : ¬a.toNat < c.toNat),
                  if_neg (by omega : ¬c.toNat < a.toNat)]
                exact ih bs cs h1 h2

theorem charToNat_inj (a b : Char) (h : a.toNat = b.toNat) : a = b := by
  calc a = Char.ofNat a.toNat := (Char.ofNat_toNat a).symm
    _ = Char.ofNat b.toNat := by rw [h]
    _ = b := Char.ofNat_toNat b

theorem listStrLt_total :
    ∀ as bs : List Char, listStrLt as bs = false → as ≠ bs →
      listStrLt bs as = true := by
  intro as
  induction as with
  | nil =>
    intro bs h hne
    cases bs with
    | nil => exact absurd rfl hne
    | cons b bs => cases h
  | cons a as ih =>
    intro bs h hne
    cases bs with
    | nil => rfl
    | cons b bs =>
      unfold listStrLt at h ⊢
      by_cases hab : a.toNat < b.toNat
      · rw [if_pos hab] at h
        cases h
      · rw [if_neg hab] at h
        by_cases hba : b.toNat < a.toNat
        · rw [if_pos hba]
        · rw [if_neg hba] at h
          rw [if_neg hba, if_neg hab]
          have hchar : a = b := charToNat_inj a b (by omega)
          subst hchar
          have htail : as ≠ bs := by
            intro heq
            exact hne (heq ▸ rfl)
          exact ih bs h htail

theorem pyStrLt_irrefl (x : String) : pyStrLt x x = false :=
  listStrLt_irrefl x.toList

theorem pyStrLt_trans (x y z : String) (h1 : pyStrLt x y = true)
    (h2 : pyStrLt y z = true) : pyStrLt x z = true :=
  listStrLt_trans x.toList y.toList z.toList h1 h2

theorem pyStrLt_total (x y : String) (h : pyStrLt x y = false)
    (hne : x ≠ y) : pyStrLt y x = true := by
  refine listStrLt_total x.toList y.toList h ?_
  intro heq
  exact hne (congrArg List.asString heq)

theorem mem_insSorted (x y : String) (l : List String) :
    y ∈ insSorted x l ↔ y = x ∨ y ∈ l := by
  induction l with
  | nil => simp [insSorted]
  | cons z zs ih =>
    unfold insSorted
    by_cases hlt : pyStrLt x z = true
    · simp [hlt]
    · by_cases heq : x = z
      · subst heq
        simp [hlt]
      · simp only [if_neg hlt, if_neg heq, List.mem_cons, ih]
        tauto

theorem sorted_insSorted (x : String) (l : List String)
    (h : l.Pairwise (fun a b => pyStrLt a b = true)) :
    (insSorted x l).Pairwise (fun a b => pyStrLt a b = true) := by
  induction l with
  | nil => simp [insSorted]
  | cons z zs ih =>
    rw [List.pairwise_cons] at h
    obtain ⟨hz, hzs⟩ := h
    unfold insSorted
    by_cases hlt : pyStrLt x z = true
    · rw [if_pos hlt, List.pairwise_cons]
      refine ⟨?_, List.pairwise_cons.mpr ⟨hz, hzs⟩⟩
      intro y hy
      rcases List.mem_cons.mp hy with hy | hy
      · exact hy ▸ hlt
      · exact pyStrLt_trans x z y hlt (hz y hy)
    · by_cases heq : x = z
      · subst heq
        rw [if_neg hlt, if_pos rfl, List.pairwise_cons]
        exact ⟨hz, hzs⟩
      · rw [if_neg hlt, if_neg heq, List.pairwise_cons]
        refine ⟨?_, ih hzs⟩
        intro y hy
        rcases (mem_insSorted x y zs).mp hy with hy | hy
        · rw [hy]
          exact pyStrLt_total x z (Bool.not_eq_true _ ▸ hlt) heq
        · exact hz y hy

theorem sortedDedup_loop_pairwise (l : List String) (acc : List String)
    (h : acc.Pairwise (fun a b => pyStrLt a b = true)) :
    (l.foldl (fun a x => insSorted x a) acc).Pairwise
      (fun a b => pyStrLt a b = true) := by
  induction l generalizing acc with
  | nil => exact h
  | cons x xs ih => exact ih _ (sorted_insSorted x acc h)

theorem sortedDedup_pairwise (l : List String) :
    (sortedDedup l).Pairwise (fun a b => pyStrLt a b = true) :=
  sortedDedup_loop_pairwise l [] (by simp)

theorem sortedDedup_nodup (l : List String) : (sortedDedup l).Nodup := by
  refine (sortedDedup_pairwise l).imp ?_
  intro a b hab heq
  rw [heq, pyStrLt_irrefl] at hab
  cases hab

theorem sortedDedup_loop_mem (l : List String) (acc : List String)
    (y : String) :
    y ∈ l.foldl (fun a x => insSorted x a) acc ↔ y ∈ acc ∨ y ∈ l := by
  induction l generalizing acc with
  | nil => simp
  | cons x xs ih =>
    rw [List.foldl_cons, ih, mem_insSorted]
    simp only [List.mem_cons]
    tauto

theorem mem_sortedDedup (l : List String) (y : String) :
    y ∈ sortedDedup l ↔ y ∈ l := by
  unfold sortedDedup
  rw [sortedDedup_loop_mem]
  simp


theorem traceProps_cons (net : String → Option SitemapDoc) (d : String)
    (rest : List String) :
    traceProps net (d :: rest)
      = (match net d with
         | some (.leaf locs) => extractProps locs
         | _ => []) ++ traceProps net rest := rfl

theorem crawlLoop_done_props (net : String → Option SitemapDoc)
    (maxNested : Nat) :
    ∀ fuel stack visited props trace urls tr,
      crawlLoop net maxNested fuel stack visited props trace
        = (.done urls, tr) →
      ∃ suffix, tr = trace ++ suffix
        ∧ urls = sortedDedup (props ++ traceProps net suffix) := by
  intro fuel
  induction fuel with
  | zero =>
    intro stack visited props trace urls tr heq
    simp [crawlLoop] at heq
  | succ n ih =>
    intro stack visited props trace urls tr heq
    match stack with
    | [] =>
      rw [crawlLoop] at heq
      have hurls : CrawlOutcome.done (sortedDedup props)
          = CrawlOutcome.done urls := congrArg Prod.fst heq
      have htr : trace = tr := congrArg Prod.snd heq
      cases hurls
      subst htr
      exact ⟨[], by simp [traceProps]⟩
    | current :: rest =>
      rw [crawlLoop] at heq
      by_cases h : visited.contains current
      · rw [if_pos h] at heq
        exact ih rest visited props trace urls tr heq
      · rw [if_neg h] at heq
        cases hnet : net current with
        | none =>
          rw [hnet] at heq
          simp at heq
        | some doc =>
          rw [hnet] at heq
          cases doc with
          | malformed =>
            obtain ⟨suffix, hsx, hurls⟩ := ih _ _ _ _ _ _ heq
            refine ⟨current :: suffix, ?_, ?_⟩
            · rw [hsx]
              simp
            · rw [hurls, traceProps_cons, hnet]
              simp
          | index locs =>
            obtain ⟨suffix, hsx, hurls⟩ := ih _ _ _ _ _ _ heq
            refine ⟨current :: suffix, ?_, ?_⟩
            · rw [hsx]
              simp
            · rw [hurls, traceProps_cons, hnet]
              simp
          | leaf locs =>
            obtain ⟨suffix, hsx, hurls⟩ := ih _ _ _ _ _ _ heq
            refine ⟨current :: suffix, ?_, ?_⟩
            · rw [hsx]
              simp
            · rw [hurls, traceProps_cons, hnet]
              simp

/-- C8 (amended): a completed discovery returns the sorted, duplicate-free
union of the exact URL strings (no canonicalization — deduplication is on
the literal string, so URLs differing only in query/fragment each appear)
matching the listing path marker across every visited leaf document; and on
the synthetic index with leaves of 2 and 1 listing URLs, discovery returns
exactly those 3 URLs, sorted. -/
theorem sitemap_result_sorted_union :
    (∀ (net : String → Option SitemapDoc) (rootSitemap : String)
        (maxNested fuel : Nat) (urls trace : List String),
      iter_sitemap_property_urls net rootSitemap maxNested fuel
        = (.done urls, trace) →
      urls.Pairwise (fun a b => pyStrLt a b = true) ∧ urls.Nodup
        ∧ ∀ u, u ∈ urls ↔ u ∈ traceProps net trace)
    ∧ iter_sitemap_property_urls netTwoLeaves "https://x.co.uk/sitemap.xml"
        100 10
      = (.done ["https://x.co.uk/property/103",
                "https://x.co.uk/property/alpha",
                "https://x.co.uk/property/beta"],
         ["https://x.co.uk/sitemap.xml", "https://x.co.uk/b.xml",
          "https://x.co.uk/a.xml"]) := by
  constructor
  · intro net rootSitemap maxNested fuel urls trace heq
    obtain ⟨suffix, hsx, hurls⟩ :=
      crawlLoop_done_props net maxNested fuel [rootSitemap] [] [] []
        urls trace heq
    have hsx' : suffix = trace := by simpa using hsx.symm
    subst hsx'
    refine ⟨?_, ?_, ?_⟩
    · rw [hurls]
      exact sortedDedup_pairwise _
    · rw [hurls]
      exact sortedDedup_nodup _
    · intro u
      rw [hurls, mem_sortedDedup]
      simp
  · decide

/-- C8 (witness): the general part applied to the synthetic two-leaf
universe: its sorted result, and one of its members traced back to a leaf. -/
theorem sitemap_result_sorted_union_witness :
    (["https://x.co.uk/property/103", "https://x.co.uk/property/alpha",
      "https://x.co.uk/property/beta"] : List String).Nodup
    ∧ "https://x.co.uk/property/alpha"
        ∈ traceProps netTwoLeaves
            ["https://x.co.uk/sitemap.xml", "https://x.co.uk/b.xml",
             "https://x.co.uk/a.xml"] := by
  have h := sitemap_result_sorted_union.1 netTwoLeaves
    "https://x.co.uk/sitemap.xml" 100 10 _ _ sitemap_result_sorted_union.2
  exact ⟨h.2.1, (h.2.2 "https://x.co.uk/property/alpha").mp (by decide)⟩

/-- C8 (counterexample): deduplication is NOT on canonical form: a leaf
listing the same property with and without a query string yields two result
entries whose canonical forms coincide. -/
theorem sitemap_no_canonical_dedup :
    iter_sitemap_property_urls netQueryDup "https://x.co.uk/sitemap.xml"
        100 5
      = (.done ["https://x.co.uk/property/1",
                "https://x.co.uk/property/1?page=2"],
         ["https://x.co.uk/sitemap.xml"])
    ∧ canonicalize "https://x.co.uk/property/1?page=2"
        = canonicalize "https://x.co.uk/property/1"
    ∧ "https://x.co.uk/property/1?page=2" ≠ "https://x.co.uk/property/1" := by
  exact ⟨by decide, by decide, by decide⟩

/- ===================== C7: landing-page link discovery ===================== -/

theorem dedupFirstAux_cons (seen : List String) (x : String)
    (xs : List String) :
    dedupFirstAux seen (x :: xs)
      = if seen.contains x = true then dedupFirstAux seen xs
        else x :: dedupFirstAux (x :: seen) xs := rfl

theorem lotCandidates_cons_skip1 (resolve : String → String) (a : String)
    (as : List String) (h1 : strIn LOT_PATH_MARKER (pyStrip a) = false) :
    lotCandidates resolve (a :: as) = lotCandidates resolve as := by
  unfold lotCandidates
  rw [List.filterMap_cons]
  simp [h1]

theorem lotCandidates_cons_skip2 (resolve : String → String) (a : String)
    (as : List String) (h1 : strIn LOT_PATH_MARKER (pyStrip a) = true)
    (h2 : lotHostOk (resolve (pyStrip a)) = false) :
    lotCandidates resolve (a :: as) = lotCandidates resolve as := by
  unfold lotCandidates
  rw [List.filterMap_cons]
  simp [h1, h2]

theorem lotCandidates_cons_keep (resolve : String → String) (a : String)
    (as : List String) (h1 : strIn LOT_PATH_MARKER (pyStrip a) = true)
    (h2 : lotHostOk (resolve (pyStrip a)) = true) :
    lotCandidates resolve (a :: as)
      = canonicalize (resolve (pyStrip a)) :: lotCandidates resolve as := by
  unfold lotCandidates
  rw [List.filterMap_cons]
  simp [h1, h2]

theorem findLotLinksStep_skip1 (resolve : String → String)
    (st : List String × List String) (a : String)
    (h1 : strIn LOT_PATH_MARKER (pyStrip a) = false) :
    findLotLinksStep resolve st a = st := by
  unfold findLotLinksStep
  rw [if_pos (by simp [h1])]

theorem findLotLinksStep_skip2 (resolve : String → String)
    (st : List String × List String) (a : String)
    (h1 : strIn LOT_PATH_MARKER (pyStrip a) = true)
    (h2 : lotHostOk (resolve (pyStrip a)) = false) :
    findLotLinksStep resolve st a = st := by
  unfold findLotLinksStep
  rw [if_neg (by simp [h1]), if_pos (by simp [h2])]

theorem findLotLinksStep_seen (resolve : String → String)
    (st : List String × List String) (a : String)
    (h1 : strIn LOT_PATH_MARKER (pyStrip a) = true)
    (h2 : lotHostOk (resolve (pyStrip a)) = true)
    (h3 : st.1.contains (canonicalize (resolve (pyStrip a))) = true) :
    findLotLinksStep resolve st a = st := by
  unfold findLotLinksStep
  rw [if_neg (by simp [h1]), if_neg (by simp [h2]), if_pos h3]

theorem findLotLinksStep_new (resolve : String → String)
    (st : List String × List String) (a : String)
    (h1 : strIn LOT_PATH_MARKER (pyStrip a) = true)
    (h2 : lotHostOk (resolve (pyStrip a)) = true)
    (h3 : st.1.contains (canonicalize (resolve (pyStrip a))) = false) :
    findLotLinksStep resolve st a
      = (canonicalize (resolve (pyStrip a)) :: st.1,
         st.2 ++ [canonicalize (resolve (pyStrip a))]) := by
  unfold findLotLinksStep
  rw [if_neg (by simp [h1]), if_neg (by simp [h2]),
    if_neg (by simpa using h3)]

theorem findLotLinks_loop (resolve : String → String)
    (anchors : List String) :
    ∀ seen links : List String,
      (anchors.foldl (findLotLinksStep resolve) (seen, links)).2
        = links ++ dedupFirstAux seen (lotCandidates resolve anchors) := by
  induction anchors with
  | nil =>
    intro seen links
    simp [lotCandidates, dedupFirstAux]
  | cons a as ih =>
    intro seen links
    rw [List.foldl_cons]
    by_cases h1 : strIn LOT_PATH_MARKER (pyStrip a) = true
    · by_cases h2 : lotHostOk (resolve (pyStrip a)) = true
      · by_cases h3 : seen.contains (canonicalize (resolve (pyStrip a)))
            = true
        · rw [findLotLinksStep_seen resolve (seen, links) a h1 h2 h3, ih,
            lotCandidates_cons_keep resolve a as h1 h2,
            dedupFirstAux_cons, if_pos h3]
        · have h3' : seen.contains (canonicalize (resolve (pyStrip a)))
              = false := Bool.not_eq_true _ ▸ h3
          rw [findLotLinksStep_new resolve (seen, links) a h1 h2 h3', ih,
            lotCandidates_cons_keep resolve a as h1 h2,
            dedupFirstAux_cons, if_neg (by simpa using h3')]
          simp
      · have h2' : lotHostOk (resolve (pyStrip a)) = false :=
          Bool.not_eq_true _ ▸ h2
        rw [findLotLinksStep_skip2 resolve (seen, links) a h1 h2', ih,
          lotCandidates_cons_skip2 resolve a as h1 h2']
    · have h1' : strIn LOT_PATH_MARKER (pyStrip a) = false :=
        Bool.not_eq_true _ ▸ h1
      rw [findLotLinksStep_skip1 resolve (seen, links) a h1', ih,
        lotCandidates_cons_skip1 resolve a as h1']

theorem discover_spec_eq_candidates (resolve : String → String)
    (anchors : List String) :
    ((((anchors.map pyStrip).filter
        (fun href => strIn LOT_PATH_MARKER href)).map resolve).filter
          lotHostOk).map canonicalize = lotCandidates resolve anchors := by
  induction anchors with
  | nil => rfl
  | cons a as ih =>
    rw [List.map_cons]
    by_cases h1 : strIn LOT_PATH_MARKER (pyStrip a) = true
    · rw [List.filter_cons_of_pos (by simpa using h1), List.map_cons]
      by_cases h2 : lotHostOk (resolve (pyStrip a)) = true
      · rw [List.filter_cons_of_pos (by simpa using h2), List.map_cons, ih,
          lotCandidates_cons_keep resolve a as h1 h2]
      · rw [List.filter_cons_of_neg (by simpa using h2), ih,
          lotCandidates_cons_skip2 resolve a as h1 (Bool.not_eq_true _ ▸ h2)]
    · rw [List.filter_cons_of_neg (by simpa using h1), ih,
        lotCandidates_cons_skip1 resolve a as (Bool.not_eq_true _ ▸ h1)]

/-- C7: landing-page link discovery returns, in order of first appearance
with duplicates removed by canonical form, exactly the anchors whose
(stripped) href contains the listing-detail path marker, resolved against
the base URL, whose host contains the expected listing-hosting domain, each
canonicalized to scheme+host+path with query and fragment dropped — i.e.
the code's fold equals the spec's staged pipeline. -/
theorem find_lot_links_matches_spec (resolve : String → String)
    (anchors : List String) :
    find_lot_links resolve anchors = discover_from_page_spec resolve anchors := by
  unfold find_lot_links discover_from_page_spec dedupFirst
  rw [findLotLinks_loop resolve anchors [] [], discover_spec_eq_candidates]
  simp

/- ===================== C9: canonicalization idempotence ===================== -/

theorem uint32_le_iff (a b : UInt32) : a ≤ b ↔ a.toNat ≤ b.toNat := by
  rw [UInt32.le_def, BitVec.le_def]
  exact Iff.rfl

theorem isUpper_iff (c : Char) :
    c.isUpper = true ↔ 65 ≤ c.toNat ∧ c.toNat ≤ 90 := by
  unfold Char.isUpper
  rw [Bool.and_eq_true, decide_eq_true_eq, decide_eq_true_eq,
    GE.ge, uint32_le_iff, uint32_le_iff]
  exact Iff.rfl

theorem isLower_iff (c : Char) :
    c.isLower = true ↔ 97 ≤ c.toNat ∧ c.toNat ≤ 122 := by
  unfold Char.isLower
  rw [Bool.and_eq_true, decide_eq_true_eq, decide_eq_true_eq,
    GE.ge, uint32_le_iff, uint32_le_iff]
  exact Iff.rfl

theorem isDigit_iff (c : Char) :
    c.isDigit = true ↔ 48 ≤ c.toNat ∧ c.toNat ≤ 57 := by
  unfold Char.isDigit
  rw [Bool.and_eq_true, decide_eq_true_eq, decide_eq_true_eq,
    GE.ge, uint32_le_iff, uint32_le_iff]
  exact Iff.rfl

theorem char_ofNat_toNat_small (n : Nat) (h : n < 55296) :
    (Char.ofNat n).toNat = n := by
  unfold Char.ofNat
  rw [dif_pos (Or.inl h)]
  simp [Char.ofNatAux, Char.toNat, UInt32.toNat]

theorem toLower_toNat_of_upper (c : Char) (h1 : 65 ≤ c.toNat)
    (h2 : c.toNat ≤ 90) : c.toLower.toNat = c.toNat + 32 := by
  unfold Char.toLower
  rw [if_pos ⟨h1, h2⟩]
  exact char_ofNat_toNat_small _ (by omega)

theorem toLower_eq_self (c : Char)
    (h : ¬(c.toNat ≥ 65 ∧ c.toNat ≤ 90)) : c.toLower = c := by
  unfold Char.toLower
  rw [if_neg h]

theorem toLower_idem (c : Char) : c.toLower.toLower = c.toLower := by
  by_cases h : 65 ≤ c.toNat ∧ c.toNat ≤ 90
  · have h32 := toLower_toNat_of_upper c h.1 h.2
    apply toLower_eq_self
    rw [h32]
    omega
  · rw [toLower_eq_self c h, toLower_eq_self c h]

theorem isSchemeChar_cases (c : Char) (h : isSchemeChar c = true) :
    (65 ≤ c.toNat ∧ c.toNat ≤ 90) ∨ (97 ≤ c.toNat ∧ c.toNat ≤ 122)
    ∨ (48 ≤ c.toNat ∧ c.toNat ≤ 57) ∨ c = '+' ∨ c = '-' ∨ c = '.' := by
  simp only [isSchemeChar, Char.isAlphanum, Char.isAlpha, Bool.or_eq_true,
    decide_eq_true_eq] at h
  rcases h with ((((h | h) | h) | h) | h) | h
  · exact Or.inl ((isUpper_iff c).mp h)
  · exact Or.inr (Or.inl ((isLower_iff c).mp h))
  · exact Or.inr (Or.inr (Or.inl ((isDigit_iff c).mp h)))
  · tauto
  · tauto
  · tauto

theorem isSchemeChar_of_lower (c : Char) (h1 : 97 ≤ c.toNat)
    (h2 : c.toNat ≤ 122) : isSchemeChar c = true := by
  simp only [isSchemeChar, Char.isAlphanum, Char.isAlpha, Bool.or_eq_true,
    decide_eq_true_eq]
  exact Or.inl (Or.inl (Or.inl (Or.inl (Or.inr ((isLower_iff c).mpr ⟨h1, h2⟩)))))

theorem isSchemeChar_toLower (c : Char) (h : isSchemeChar c = true) :
    isSchemeChar c.toLower = true := by
  rcases isSchemeChar_cases c h with h' | h' | h' | h' | h' | h'
  · have h32 := toLower_toNat_of_upper c h'.1 h'.2
    exact isSchemeChar_of_lower _ (by omega) (by omega)
  · rw [toLower_eq_self c (by omega)]
    exact h
  · rw [toLower_eq_self c (by omega)]
    exact h
  · subst h'
    decide
  · subst h'
    decide
  · subst h'
    decide

theorem isAlpha_toLower (c : Char) (h : c.isAlpha = true) :
    c.toLower.isAlpha = true := by
  simp only [Char.isAlpha, Bool.or_eq_true] at h ⊢
  rcases h with h | h
  · obtain ⟨h1, h2⟩ := (isUpper_iff c).mp h
    have h32 := toLower_toNat_of_upper c h1 h2
    exact Or.inr ((isLower_iff _).mpr ⟨by omega, by omega⟩)
  · obtain ⟨h1, h2⟩ := (isLower_iff c).mp h
    rw [toLower_eq_self c (by omega)]
    exact Or.inr h

theorem isSchemeChar_colon : isSchemeChar ':' = false := by decide

theorem isSchemeChar_ne_colon (c : Char) (h : isSchemeChar c = true) :
    c ≠ ':' := by
  intro heq
  rw [heq, isSchemeChar_colon] at h
  cases h

theorem breakAtChar_some_spec (c : Char) :
    ∀ l a b : List Char, breakAtChar c l = (a, some b) →
      l = a ++ c :: b ∧ c ∉ a := by
  intro l
  induction l with
  | nil =>
    intro a b h
    simp [breakAtChar] at h
  | cons x xs ih =>
    intro a b h
    unfold breakAtChar at h
    by_cases hx : x = c
    · rw [if_pos hx] at h
      obtain rfl : a = [] := (congrArg Prod.fst h).symm
      obtain rfl : b = xs := (Option.some.inj (congrArg Prod.snd h)).symm
      subst hx
      exact ⟨rfl, by simp⟩
    · rw [if_neg hx] at h
      rcases hb : breakAtChar c xs with ⟨a', b'⟩
      rw [hb] at h
      cases b' with
      | none => simp at h
      | some bb =>
        obtain rfl : a = x :: a' := (congrArg Prod.fst h).symm
        obtain rfl : b = bb := (Option.some.inj (congrArg Prod.snd h)).symm
        obtain ⟨h1, h2⟩ := ih a' b hb
        refine ⟨by rw [h1]; rfl, ?_⟩
        intro hmem
        rcases List.mem_cons.mp hmem with hmem | hmem
        · exact hx hmem.symm
        · exact h2 hmem

theorem breakAtChar_not_mem (c : Char) :
    ∀ l : List Char, c ∉ l → breakAtChar c l = (l, none) := by
  intro l
  induction l with
  | nil => intro _; rfl
  | cons x xs ih =>
    intro h
    unfold breakAtChar
    rw [if_neg (fun (hx : x = c) => h (hx ▸ List.mem_cons_self x xs)),
      ih (fun hmem => h (List.mem_cons_of_mem _ hmem))]

theorem breakAtChar_append (c : Char) (a b : List Char) (h : c ∉ a) :
    breakAtChar c (a ++ c :: b) = (a, some b) := by
  induction a with
  | nil =>
    unfold breakAtChar
    simp
  | cons x xs ih =>
    have hx : x ≠ c := fun hx => h (hx ▸ List.mem_cons_self x xs)
    show breakAtChar c (x :: (xs ++ c :: b)) = (x :: xs, some b)
    unfold breakAtChar
    rw [if_neg hx, ih (fun hmem => h (List.mem_cons_of_mem _ hmem))]

theorem breakAtLast_none_not_mem (c : Char) :
    ∀ l : List Char, breakAtLast c l = none → c ∉ l := by
  intro l
  induction l with
  | nil =>
    intro _ hmem
    cases hmem
  | cons x xs ih =>
    intro h hmem
    unfold breakAtLast at h
    rcases hb : breakAtLast c xs with _ | ⟨a', b'⟩
    · rw [hb] at h
      by_cases hx : x = c
      · rw [if_pos hx] at h
        cases h
      · rw [if_neg hx] at h
        rcases List.mem_cons.mp hmem with hmem' | hmem'
        · exact hx hmem'.symm
        · exact ih hb hmem'
    · rw [hb] at h
      cases h

theorem breakAtLast_some_spec (c : Char) :
    ∀ l a b : List Char, breakAtLast c l = some (a, b) →
      l = a ++ c :: b ∧ c ∉ b := by
  intro l
  induction l with
  | nil =>
    intro a b h
    simp [breakAtLast] at h
  | cons x xs ih =>
    intro a b h
    unfold breakAtLast at h
    rcases hb : breakAtLast c xs with _ | ⟨a', b'⟩
    · rw [hb] at h
      by_cases hx : x = c
      · rw [if_pos hx] at h
        have hp := Option.some.inj h
        obtain rfl : a = [] := (congrArg Prod.fst hp).symm
        have hbxs : b = xs := (congrArg Prod.snd hp).symm
        refine ⟨?_, ?_⟩
        · rw [hbxs, hx]
          rfl
        · rw [hbxs]
          exact breakAtLast_none_not_mem c xs hb
      · rw [if_neg hx] at h
        cases h
    · rw [hb] at h
      have hp := Option.some.inj h
      obtain rfl : a = x :: a' := (congrArg Prod.fst hp).symm
      obtain rfl : b = b' := (congrArg Prod.snd hp).symm
      obtain ⟨h1, h2⟩ := ih a' b hb
      exact ⟨by rw [h1]; rfl, h2⟩


theorem breakAtLast_cons (c x : Char) (xs : List Char) :
    breakAtLast c (x :: xs)
      = (match breakAtLast c xs with
         | some (a, b) => some (x :: a, b)
         | none => if x = c then some ([], xs) else none) := rfl

theorem breakAtLast_not_mem (c : Char) :
    ∀ l : List Char, c ∉ l → breakAtLast c l = none := by
  intro l
  induction l with
  | nil => intro _; rfl
  | cons x xs ih =>
    intro h
    have hx : x ≠ c := fun hx => h (hx ▸ List.mem_cons_self x xs)
    rw [breakAtLast_cons,
      ih (fun hmem => h (List.mem_cons_of_mem _ hmem))]
    simp [hx]

theorem breakAtLast_append (c : Char) (a b : List Char) (h : c ∉ b) :
    breakAtLast c (a ++ c :: b) = some (a, b) := by
  induction a with
  | nil =>
    rw [List.nil_append, breakAtLast_cons, breakAtLast_not_mem c b h]
    simp
  | cons x xs ih =>
    rw [List.cons_append, breakAtLast_cons, ih]

theorem breakAtLast_append_left (c : Char) (n m : List Char) (h : c ∉ n) :
    breakAtLast c (n ++ m)
      = (breakAtLast c m).map (fun ab => (n ++ ab.1, ab.2)) := by
  induction n with
  | nil =>
    rcases hm : breakAtLast c m with _ | ⟨a, b⟩ <;> simp [hm]
  | cons x xs ih =>
    have hx : x ≠ c := fun hx => h (hx ▸ List.mem_cons_self x xs)
    have hxs : c ∉ xs := fun hmem => h (List.mem_cons_of_mem _ hmem)
    rw [List.cons_append, breakAtLast_cons, ih hxs]
    rcases hm : breakAtLast c m with _ | ⟨a, b⟩
    · simp [hx]
    · simp

theorem spanNetloc_cons_stop (c : Char) (cs : List Char)
    (hc : isNetlocStop c = true) : spanNetloc (c :: cs) = ([], c :: cs) := by
  unfold spanNetloc
  rw [if_pos hc]

theorem spanNetloc_cons_go (c : Char) (cs a b : List Char)
    (hc : isNetlocStop c = false) (h : spanNetloc cs = (a, b)) :
    spanNetloc (c :: cs) = (c :: a, b) := by
  unfold spanNetloc
  rw [if_neg (by simp [hc]), h]

theorem spanNetloc_spec :
    ∀ l a b : List Char, spanNetloc l = (a, b) →
      l = a ++ b ∧ (∀ x ∈ a, isNetlocStop x = false)
      ∧ (b = [] ∨ ∃ y ys, b = y :: ys ∧ isNetlocStop y = true) := by
  intro l
  induction l with
  | nil =>
    intro a b h
    obtain rfl : a = [] := (congrArg Prod.fst h).symm
    obtain rfl : b = [] := (congrArg Prod.snd h).symm
    exact ⟨rfl, by simp, Or.inl rfl⟩
  | cons x xs ih =>
    intro a b h
    by_cases hx : isNetlocStop x = true
    · rw [spanNetloc_cons_stop x xs hx] at h
      obtain rfl : a = [] := (congrArg Prod.fst h).symm
      obtain rfl : b = x :: xs := (congrArg Prod.snd h).symm
      exact ⟨rfl, by simp, Or.inr ⟨x, xs, rfl, hx⟩⟩
    · have hx' : isNetlocStop x = false := Bool.not_eq_true _ ▸ hx
      rcases hs : spanNetloc xs with ⟨a', b'⟩
      rw [spanNetloc_cons_go x xs a' b' hx' hs] at h
      obtain rfl : a = x :: a' := (congrArg Prod.fst h).symm
      obtain rfl : b = b' := (congrArg Prod.snd h).symm
      obtain ⟨h1, h2, h3⟩ := ih a' b hs
      refine ⟨by rw [h1]; rfl, ?_, h3⟩
      intro y hy
      rcases List.mem_cons.mp hy with hy | hy
      · rw [hy]
        exact hx'
      · exact h2 y hy

theorem spanNetloc_append_left (n m : List Char)
    (h : ∀ x ∈ n, isNetlocStop x = false) :
    spanNetloc (n ++ m) = (n ++ (spanNetloc m).1, (spanNetloc m).2) := by
  induction n with
  | nil => simp
  | cons x xs ih =>
    have hx : isNetlocStop x = false := h x (List.mem_cons_self x xs)
    have hrec := ih (fun y hy => h y (List.mem_cons_of_mem _ hy))
    rw [List.cons_append]
    exact (spanNetloc_cons_go x (xs ++ m) _ _ hx hrec).trans (by simp)

theorem splitScheme_scheme_prop (l s r : List Char)
    (h : splitScheme l = (s, r)) :
    s = [] ∨ ((∀ x ∈ s, isSchemeChar x = true)
      ∧ (∃ c cs, s = c :: cs ∧ c.isAlpha = true)
      ∧ s.map Char.toLower = s) := by
  unfold splitScheme at h
  rcases hb : breakAtChar ':' l with ⟨before, ob⟩
  rw [hb] at h
  cases ob with
  | none =>
    left
    exact (congrArg Prod.fst h).symm
  | some rest =>
    cases before with
    | nil =>
      left
      exact (congrArg Prod.fst h).symm
    | cons c cs =>
      dsimp only at h
      by_cases hcond : (c.isAlpha && (c :: cs).all isSchemeChar) = true
      · rw [if_pos hcond] at h
        obtain rfl : s = (c :: cs).map Char.toLower :=
          (congrArg Prod.fst h).symm
        rw [Bool.and_eq_true] at hcond
        obtain ⟨hca, hall⟩ := hcond
        rw [List.all_eq_true] at hall
        right
        refine ⟨?_, ?_, ?_⟩
        · intro x hx
          rcases List.mem_map.mp hx with ⟨y, hy, rfl⟩
          exact isSchemeChar_toLower y (by simpa using hall y hy)
        · exact ⟨c.toLower, cs.map Char.toLower, rfl, isAlpha_toLower c hca⟩
        · rw [List.map_map]
          apply List.map_congr_left
          intro y _
          exact toLower_idem y
      · rw [if_neg hcond] at h
        left
        exact (congrArg Prod.fst h).symm

theorem splitScheme_reconstruct (s r : List Char) (hs : s ≠ [])
    (hall : ∀ x ∈ s, isSchemeChar x = true)
    (halpha : ∃ c cs, s = c :: cs ∧ c.isAlpha = true)
    (hlower : s.map Char.toLower = s) :
    splitScheme (s ++ ':' :: r) = (s, r) := by
  have hnc : ':' ∉ s := fun hmem => by
    have := hall ':' hmem
    rw [isSchemeChar_colon] at this
    cases this
  unfold splitScheme
  rw [breakAtChar_append ':' s r hnc]
  obtain ⟨c, cs, rfl, hca⟩ := halpha
  dsimp only
  rw [if_pos]
  · rw [hlower]
  · rw [Bool.and_eq_true]
    refine ⟨hca, ?_⟩
    rw [List.all_eq_true]
    intro y hy
    simpa using hall y hy

theorem breakAtChar_none_spec (c : Char) :
    ∀ l a : List Char, breakAtChar c l = (a, none) → a = l ∧ c ∉ l := by
  intro l
  induction l with
  | nil =>
    intro a h
    obtain rfl : a = [] := (congrArg Prod.fst h).symm
    exact ⟨rfl, by simp⟩
  | cons x xs ih =>
    intro a h
    unfold breakAtChar at h
    by_cases hx : x = c
    · rw [if_pos hx] at h
      have := congrArg Prod.snd h
      simp at this
    · rw [if_neg hx] at h
      rcases hb : breakAtChar c xs with ⟨a', ob⟩
      rw [hb] at h
      obtain rfl : a = x :: a' := (congrArg Prod.fst h).symm
      have hob : ob = none := by
        have := congrArg Prod.snd h
        simpa using this
      subst hob
      obtain ⟨rfl, hnm⟩ := ih a' hb
      refine ⟨rfl, ?_⟩
      intro hmem
      rcases List.mem_cons.mp hmem with hmem | hmem
      · exact hx hmem.symm
      · exact hnm hmem

theorem splitFragment_spec (l : List Char) :
    (splitFragment l).1 <+: l ∧ '#' ∉ (splitFragment l).1 := by
  unfold splitFragment
  rcases hb : breakAtChar '#' l with ⟨a, ob⟩
  cases ob with
  | none =>
    obtain ⟨rfl, hnm⟩ := breakAtChar_none_spec '#' l a hb
    exact ⟨List.prefix_rfl, hnm⟩
  | some b =>
    obtain ⟨hl, hnm⟩ := breakAtChar_some_spec '#' l a b hb
    exact ⟨⟨'#' :: b, hl.symm⟩, hnm⟩

theorem splitFragment_not_mem (l : List Char) (h : '#' ∉ l) :
    splitFragment l = (l, []) := by
  unfold splitFragment
  rw [breakAtChar_not_mem '#' l h]

theorem splitQuery_spec (l : List Char) :
    (splitQuery l).1 <+: l ∧ '?' ∉ (splitQuery l).1 := by
  unfold splitQuery
  rcases hb : breakAtChar '?' l with ⟨a, ob⟩
  cases ob with
  | none =>
    obtain ⟨rfl, hnm⟩ := breakAtChar_none_spec '?' l a hb
    exact ⟨List.prefix_rfl, hnm⟩
  | some b =>
    obtain ⟨hl, hnm⟩ := breakAtChar_some_spec '?' l a b hb
    exact ⟨⟨'?' :: b, hl.symm⟩, hnm⟩

theorem splitQuery_not_mem (l : List Char) (h : '?' ∉ l) :
    splitQuery l = (l, []) := by
  unfold splitQuery
  rw [breakAtChar_not_mem '?' l h]

theorem splitParams_spec (x : List Char) :
    (splitParams x).1 <+: x ∧ paramsFree (splitParams x).1 := by
  unfold splitParams
  rcases hbl : breakAtLast '/' x with _ | ⟨a, b⟩
  · dsimp only
    rcases hbc : breakAtChar ';' x with ⟨p1, ob⟩
    cases ob with
    | none =>
      dsimp only
      refine ⟨List.prefix_rfl, ?_⟩
      unfold paramsFree
      rw [hbl]
      exact (breakAtChar_none_spec ';' x p1 hbc).2
    | some p2 =>
      dsimp only
      obtain ⟨hx, hnm⟩ := breakAtChar_some_spec ';' x p1 p2 hbc
      have hns : '/' ∉ x := breakAtLast_none_not_mem '/' x hbl
      have hpre : p1 <+: x := ⟨';' :: p2, hx.symm⟩
      refine ⟨hpre, ?_⟩
      unfold paramsFree
      rw [breakAtLast_not_mem '/' p1 (fun hmem => hns (hpre.subset hmem))]
      exact hnm
  · dsimp only
    obtain ⟨hx, hnb⟩ := breakAtLast_some_spec '/' x a b hbl
    rcases hbc : breakAtChar ';' b with ⟨b1, ob⟩
    cases ob with
    | none =>
      dsimp only
      refine ⟨List.prefix_rfl, ?_⟩
      unfold paramsFree
      rw [hbl]
      exact (breakAtChar_none_spec ';' b b1 hbc).2
    | some b2 =>
      dsimp only
      obtain ⟨hb, hnm⟩ := breakAtChar_some_spec ';' b b1 b2 hbc
      have hb1b : b1 <+: b := ⟨';' :: b2, hb.symm⟩
      have hb1s : '/' ∉ b1 := fun hmem => hnb (hb1b.subset hmem)
      refine ⟨⟨';' :: b2, ?_⟩, ?_⟩
      · rw [hx, hb]
        simp
      · unfold paramsFree
        rw [breakAtLast_append '/' a b1 hb1s]
        exact hnm

theorem splitParams_of_paramsFree (p : List Char) (h : paramsFree p) :
    splitParams p = (p, []) := by
  unfold paramsFree at h
  unfold splitParams
  rcases hbl : breakAtLast '/' p with _ | ⟨a, b⟩
  · rw [hbl] at h
    dsimp only
    rw [breakAtChar_not_mem ';' p h]
  · rw [hbl] at h
    dsimp only
    rw [breakAtChar_not_mem ';' b h]

theorem paramsFree_suffix (p1 p2 : List Char) (hn : '/' ∉ p1)
    (h : paramsFree (p1 ++ p2)) (hp : '/' ∈ p2) : paramsFree p2 := by
  rcases hbl : breakAtLast '/' p2 with _ | ⟨a, B⟩
  · exact absurd hp (breakAtLast_none_not_mem '/' p2 hbl)
  · unfold paramsFree
    rw [hbl]
    unfold paramsFree at h
    rw [breakAtLast_append_left '/' p1 p2 hn, hbl] at h
    exact h

theorem splitNetloc_slashes (x : List Char) :
    splitNetloc ('/' :: '/' :: x) = spanNetloc x := rfl

theorem splitNetloc_no_stops (l n r : List Char)
    (h : splitNetloc l = (n, r)) : ∀ x ∈ n, isNetlocStop x = false := by
  unfold splitNetloc at h
  split at h
  · exact (spanNetloc_spec _ n r h).2.1
  · obtain rfl : n = [] := (congrArg Prod.fst h).symm
    intro x hx
    cases hx

theorem urlparseL_eq (l s r1 n r2 r3 f rawP q p par : List Char)
    (h1 : splitScheme l = (s, r1)) (h2 : splitNetloc r1 = (n, r2))
    (h3 : splitFragment r2 = (r3, f)) (h4 : splitQuery r3 = (rawP, q))
    (h5 : splitParams rawP = (p, par)) :
    urlparseL l = ⟨s, n, p, par, q, f⟩ := by
  unfold urlparseL
  rw [h1]
  dsimp only
  rw [h2]
  dsimp only
  rw [h3]
  dsimp only
  rw [h4]
  dsimp only
  rw [h5]

theorem canonicalizeL_idem (l : List Char)
    (h : (urlparseL l).scheme ≠ []) :
    canonicalizeL (canonicalizeL l) = canonicalizeL l := by
  rcases hsp : splitScheme l with ⟨s, r1⟩
  rcases hnl : splitNetloc r1 with ⟨n, r2⟩
  rcases hfr : splitFragment r2 with ⟨r3, f⟩
  rcases hqu : splitQuery r3 with ⟨rawP, q⟩
  rcases hpar : splitParams rawP with ⟨p, par⟩
  have hu : urlparseL l = ⟨s, n, p, par, q, f⟩ :=
    urlparseL_eq l s r1 n r2 r3 f rawP q p par hsp hnl hfr hqu hpar
  rw [hu] at h
  have hs : s ≠ [] := h
  rcases splitScheme_scheme_prop l s r1 hsp with rfl | ⟨hall, halpha, hlower⟩
  · exact absurd rfl hs
  have hnstop : ∀ x ∈ n, isNetlocStop x = false :=
    splitNetloc_no_stops r1 n r2 hnl
  have hfr3 : r3 <+: r2 ∧ '#' ∉ r3 := by
    have hsp3 := splitFragment_spec r2
    rw [hfr] at hsp3
    exact hsp3
  have hq3 : rawP <+: r3 ∧ '?' ∉ rawP := by
    have hsp3 := splitQuery_spec r3
    rw [hqu] at hsp3
    exact hsp3
  have hp3 : p <+: rawP ∧ paramsFree p := by
    have hsp3 := splitParams_spec rawP
    rw [hpar] at hsp3
    exact hsp3
  have hpnq : '?' ∉ p := fun hm => hq3.2 (hp3.1.subset hm)
  have hpnf : '#' ∉ p := fun hm => hfr3.2 ((hp3.1.trans hq3.1).subset hm)
  have hc : canonicalizeL l = s ++ ':' :: '/' :: '/' :: (n ++ p) := by
    unfold canonicalizeL
    rw [hu]
    dsimp only
    simp
  rw [hc]
  rcases hps : spanNetloc p with ⟨p1, p2⟩
  obtain ⟨hp12, hp1ns, hp2shape⟩ := spanNetloc_spec p p1 p2 hps
  have hsub2 : ∀ x ∈ p2, x ∈ p := by
    intro x hx
    rw [hp12]
    exact List.mem_append_right _ hx
  have hp2nf : '#' ∉ p2 := fun hm => hpnf (hsub2 _ hm)
  have hp2nq : '?' ∉ p2 := fun hm => hpnq (hsub2 _ hm)
  have hparams2 : splitParams p2 = (p2, []) := by
    rcases hp2shape with rfl | ⟨y, ys, rfl, hy⟩
    · rfl
    · have hy' : y = '/' := by
        unfold isNetlocStop at hy
        simp at hy
        rcases hy with (h' | h') | h'
        · exact h'
        · subst h'
          exact absurd (List.mem_cons_self _ _) hp2nq
        · subst h'
          exact absurd (List.mem_cons_self _ _) hp2nf
      subst hy'
      refine splitParams_of_paramsFree _
        (paramsFree_suffix p1 ('/' :: ys) ?_ ?_ ?_)
      · intro hm
        have hstop := hp1ns '/' hm
        simp [isNetlocStop] at hstop
      · rw [← hp12]
        exact hp3.2
      · exact List.mem_cons_self _ _
  have e1 : splitScheme (s ++ ':' :: ('/' :: '/' :: (n ++ p)))
      = (s, '/' :: '/' :: (n ++ p)) :=
    splitScheme_reconstruct s _ hs hall halpha hlower
  have e2 : splitNetloc ('/' :: '/' :: (n ++ p)) = (n ++ p1, p2) := by
    rw [splitNetloc_slashes, spanNetloc_append_left n p hnstop, hps]
  have e3 : splitFragment p2 = (p2, []) := splitFragment_not_mem p2 hp2nf
  have e4 : splitQuery p2 = (p2, []) := splitQuery_not_mem p2 hp2nq
  have hu2 : urlparseL (s ++ ':' :: ('/' :: '/' :: (n ++ p)))
      = ⟨s, n ++ p1, p2, [], [], []⟩ :=
    urlparseL_eq _ s _ (n ++ p1) p2 p2 [] p2 [] p2 [] e1 e2 e3 e4 hparams2
  unfold canonicalizeL
  rw [hu2]
  dsimp only
  rw [hp12]
  simp

theorem canonicalize_toList (u : String) :
    canonicalize u = (canonicalizeL u.toList).asString := rfl

theorem urlparse_scheme_toList (u : String) :
    (urlparse u).scheme = (urlparseL u.toList).scheme.asString := rfl

/-- C9: the canonical URL form `f"{parsed.scheme}://{parsed.netloc}{parsed.path}"`
built by `_canonical_lot_url` is idempotent for every URL whose parsed scheme is
nonempty (in particular every `http(s)` URL): canonicalizing an already-canonical
URL returns it unchanged. -/
theorem canonicalize_idempotent_of_scheme (u : String)
    (h : (urlparse u).scheme ≠ "") :
    canonicalize (canonicalize u) = canonicalize u := by
  have hL : (urlparseL u.toList).scheme ≠ [] := by
    intro he
    apply h
    rw [urlparse_scheme_toList, he]
    rfl
  have ht : (canonicalize u).toList = canonicalizeL u.toList := rfl
  calc canonicalize (canonicalize u)
      = (canonicalizeL ((canonicalize u).toList)).asString :=
        canonicalize_toList (canonicalize u)
    _ = (canonicalizeL (canonicalizeL u.toList)).asString := by rw [ht]
    _ = (canonicalizeL u.toList).asString := by
        rw [canonicalizeL_idem u.toList hL]
    _ = canonicalize u := (canonicalize_toList u).symm

/-- C9 witness: the theorem applied to a concrete listing URL. -/
theorem canonicalize_idempotent_of_scheme_witness :
    (urlparse "https://online.auctionhouse.co.uk/property/123?page=2").scheme ≠ ""
    ∧ canonicalize (canonicalize "https://online.auctionhouse.co.uk/property/123?page=2")
      = canonicalize "https://online.auctionhouse.co.uk/property/123?page=2" :=
  ⟨by decide, canonicalize_idempotent_of_scheme _ (by decide)⟩

/-- C9 counterexample to unconditional idempotence: on a URL with no parseable
scheme (here the empty string) the canonical form is `"://"`, and canonicalizing
that again yields `"://://"`, so canonicalization is not idempotent on all strings. -/
theorem canonicalize_not_idempotent_empty :
    canonicalize (canonicalize "") ≠ canonicalize "" := by decide
